import Mathlib

/-!
Verification development for the Legal-Document-Tracking service.

The Python source is shallowly embedded: pure functions become Lean
functions, the stateful parts (Mongo collections, job records) become
explicit state passing, fallible calls become `Except`.  Python floats
carry only the score constants 1.0, 0.7, 0.4, 1.2 and similarities
derived from stored distances; they are modelled as exact rationals
(`ℚ`), which agrees with the float computation on every quantity the
theorems below touch.  Python strings are modelled through their
character lists so that every operation is kernel-computable.
-/

/-! ## String helpers (models of the Python `str` operations used) -/

/-- Model of Python `str.lower` (character-wise). -/
def lowerStr (s : String) : String := ⟨s.data.map Char.toLower⟩

/-- Model of Python `str.upper` (character-wise). -/
def upperStr (s : String) : String := ⟨s.data.map Char.toUpper⟩

/-- Boolean test that `pre` is a prefix of `l` (model of `str.startswith`). -/
def leadsWith : List Char → List Char → Bool
  | [], _ => true
  | _ :: _, [] => false
  | a :: as, b :: bs => a = b && leadsWith as bs

/-- Boolean substring containment (model of Python `needle in haystack`). -/
def occursIn (needle : List Char) : List Char → Bool
  | [] => leadsWith needle []
  | h :: t => leadsWith needle (h :: t) || occursIn needle t

/-- Model of `str.startswith`. -/
def startsWithStr (s pre : String) : Bool := leadsWith pre.data s.data

/-- Helper for `splitWs`: accumulates the current word (reversed). -/
def wordsAux : List Char → List Char → List String
  | [], acc => if acc.isEmpty then [] else [⟨acc.reverse⟩]
  | c :: cs, acc =>
    if c.isWhitespace then
      (if acc.isEmpty then wordsAux cs [] else ⟨acc.reverse⟩ :: wordsAux cs [])
    else wordsAux cs (c :: acc)

/-- Model of Python `str.split()` with no argument: split on whitespace
runs, dropping empty pieces. -/
def splitWs (s : String) : List String := wordsAux s.data []

/-- Model of Python `str.strip()`. -/
def trimStr (s : String) : String :=
  ⟨((s.data.dropWhile Char.isWhitespace).reverse.dropWhile Char.isWhitespace).reverse⟩

/-! ## Keyword-proximity search (`vectordb.py`, `VectorDB._keyword_search`) -/

/-- The stop-word set of `_keyword_search`. -/
def stop_words : List String :=
  ["the", "a", "an", "and", "or", "of", "in", "on", "at", "to", "for", "with", "by"]

/-- `[w.lower() for w in query.split() if w.lower() not in stop_words and len(w) > 2]`. -/
def significantWords (query : String) : List String :=
  (splitWs query).filterMap (fun w =>
    let lw := lowerStr w
    if lw ∈ stop_words ∨ w.length ≤ 2 then none else some lw)

/-- The lower-cased word list of a chunk: `doc_text.lower().split()`. -/
def chunkWords (doc_text : String) : List String := splitWs (lowerStr doc_text)

/-- Positions of a query word in the chunk's word list:
`[i for i, w in enumerate(words) if query_word in w]` (substring match). -/
def positionsOf (words : List String) (qw : String) : List Nat :=
  words.enum.filterMap (fun p => if occursIn qw.data p.2.data then some p.1 else none)

/-- The distinct query words present in the chunk: the keys of the
`word_positions` dict (insertion order = first occurrence). -/
def foundWords (query_words : List String) (doc_text : String) : List String :=
  query_words.eraseDups.filter (fun qw => !(positionsOf (chunkWords doc_text) qw).isEmpty)

/-- `required_count = max(2, int(len(query_words) * 0.7))`.  The float
product `n * 0.7` truncated by `int` is modelled as the exact rational
floor `7 * n / 10`; the two agree for every `n ≤ 89` (the double
product first rounds below an exact integer at `n = 90`). -/
def required_count (query_words : List String) : Nat :=
  max 2 (query_words.length * 7 / 10)

/-- Cartesian product of position lists, as `itertools.product`. -/
def combos : List (List Nat) → List (List Nat)
  | [] => [[]]
  | ps :: rest => ps.flatMap (fun p => (combos rest).map (p :: ·))

/-- `max(positions) - min(positions)` of one combination. -/
def spanOf : List Nat → Nat
  | [] => 0
  | x :: xs => xs.foldl Nat.max x - xs.foldl Nat.min x

/-- Minimum of a list of naturals, `none` on the empty list. -/
def minNat? : List Nat → Option Nat
  | [] => none
  | x :: xs => some (xs.foldl Nat.min x)

/-- The minimal span over all combinations of one position per found
word.  The Python loop's early `break` at `min_span <= 15` does not
change which score bucket is reached, so the full minimum is the
faithful summary of the loop. -/
def minSpanOf (posLists : List (List Nat)) : Option Nat :=
  minNat? ((combos posLists).map spanOf)

/-- Per-chunk score of `_keyword_search`: `none` when the chunk is
skipped (`continue`), `some score` when it contributes. -/
def chunkKeywordScore (query_words : List String) (doc_text : String) : Option ℚ :=
  let words := chunkWords doc_text
  let found := foundWords query_words doc_text
  if found.length < required_count query_words then none
  else
    match minSpanOf (found.map (positionsOf words)) with
    | none => none
    | some min_span =>
      let raw : Option ℚ :=
        if min_span ≤ 15 then some 1
        else if min_span ≤ 30 then some (7/10)
        else if min_span ≤ 45 then some (2/5)
        else none
      raw.map (fun s =>
        if found.length = query_words.length then min 1 (s * (12/10)) else s)

/-! ## Document-level match records (`doc_matches` dictionaries) -/

/-- One entry of the `doc_matches` dict built by the two searches. -/
structure DocMatch where
  document_id : String
  url : String
  title : String
  dtype : String
  chunks : List (String × String)
  semantic_score : ℚ
  keyword_score : ℚ
deriving DecidableEq

/-- Python dicts keyed by `document_id`, modelled as insertion-ordered
association lists. -/
abbrev DocMap := List (String × DocMatch)

/-- Dict lookup. -/
def lookupA (m : DocMap) (k : String) : Option DocMatch :=
  (m.find? (fun p => p.1 = k)).map (·.2)

/-- In-place update of the entry at key `k`. -/
def updateA (m : DocMap) (k : String) (f : DocMatch → DocMatch) : DocMap :=
  m.map (fun p => if p.1 = k then (p.1, f p.2) else p)

/-- One loop iteration of `_keyword_search` over a stored chunk. -/
structure StoredChunk where
  chunk_id : String
  text : String
  document_id : String
  url : String
  title : String
  dtype : String
deriving DecidableEq

def keywordStep (query_words : List String) (acc : DocMap) (c : StoredChunk) : DocMap :=
  match chunkKeywordScore query_words c.text with
  | none => acc
  | some score =>
    if c.document_id = "" then acc
    else
      match lookupA acc c.document_id with
      | none =>
        acc ++ [(c.document_id,
          ⟨c.document_id, c.url, c.title, c.dtype, [(c.chunk_id, c.text)], 0, score⟩)]
      | some _ =>
        updateA (updateA acc c.document_id
            (fun m => { m with keyword_score := max m.keyword_score score }))
          c.document_id (fun m => { m with chunks := m.chunks ++ [(c.chunk_id, c.text)] })

/-- `VectorDB._keyword_search`: full scan of the stored chunks. -/
def keyword_search (query : String) (stored : List StoredChunk) : DocMap :=
  let query_words := significantWords query
  if query_words.length < 2 then []
  else stored.foldl (keywordStep query_words) []

/-! ## Semantic search (`VectorDB._semantic_search`) -/

/-- One hit returned by the vector-store query: chunk id, text, its
metadata and the cosine distance. -/
structure QueryHit where
  chunk_id : String
  text : String
  document_id : String
  url : String
  title : String
  dtype : String
  distance : ℚ
deriving DecidableEq

/-- One loop iteration of `_semantic_search` over a returned hit. -/
def semanticStep (threshold : ℚ) (acc : DocMap) (h : QueryHit) : DocMap :=
  let similarity := 1 - h.distance
  if threshold ≤ similarity then
    if h.document_id = "" then acc
    else
      match lookupA acc h.document_id with
      | none =>
        acc ++ [(h.document_id,
          ⟨h.document_id, h.url, h.title, h.dtype, [(h.chunk_id, h.text)], similarity, 0⟩)]
      | some _ =>
        updateA (updateA acc h.document_id
            (fun m => { m with semantic_score := max m.semantic_score similarity }))
          h.document_id (fun m => { m with chunks := m.chunks ++ [(h.chunk_id, h.text)] })
  else acc

/-- `VectorDB._semantic_search` applied to the hits the vector store
returned for the query embedding. -/
def semantic_search (hits : List QueryHit) (threshold : ℚ) : DocMap :=
  hits.foldl (semanticStep threshold) []

/-! ## Merge (`VectorDB._merge_results`) -/

/-- One merged candidate document. -/
structure Candidate where
  document_id : String
  url : String
  title : String
  dtype : String
  chunks : List (String × String)
  confidence : ℚ
  match_type : String
  semantic_score : ℚ
  keyword_score : ℚ
deriving DecidableEq

/-- Stand-in for the empty dict `{}` returned by `.get(doc_id, {})`. -/
def emptyDM : DocMatch := ⟨"", "", "", "", [], 0, 0⟩

/-- Chunk dedup by `chunk_id` via a Python dict: later assignment wins,
insertion order kept. -/
def dedupChunks (cs : List (String × String)) : List (String × String) :=
  cs.foldl (fun acc c =>
    if (acc.find? (fun p => p.1 = c.1)).isSome then
      acc.map (fun p => if p.1 = c.1 then c else p)
    else acc ++ [c]) []

/-- The body of the `_merge_results` loop for one document id. -/
def mergeOne (semantic keyword : DocMap) (doc_id : String) : Candidate :=
  let semD := lookupA semantic doc_id
  let kwD := lookupA keyword doc_id
  let sem_score := (semD.map (·.semantic_score)).getD 0
  let kw_score := (kwD.map (·.keyword_score)).getD 0
  let base := match semD with
    | some d => d
    | none => kwD.getD emptyDM
  let all_chunks := dedupChunks ((semD.map (·.chunks)).getD [] ++ (kwD.map (·.chunks)).getD [])
  let ct : ℚ × String :=
    if 0 < sem_score ∧ 0 < kw_score then (max sem_score kw_score, "semantic+keyword")
    else if 0 < sem_score then (sem_score, "semantic")
    else (kw_score, "keyword")
  ⟨doc_id, base.url, base.title, base.dtype, all_chunks, ct.1, ct.2, sem_score, kw_score⟩

/-- Descending-confidence order used by `merged.sort(key=..., reverse=True)`. -/
def byConfDesc (a b : Candidate) : Prop := b.confidence ≤ a.confidence

instance : DecidableRel byConfDesc := fun a b => inferInstanceAs (Decidable (b.confidence ≤ a.confidence))

instance : IsTotal Candidate byConfDesc := ⟨fun a b => le_total b.confidence a.confidence⟩

instance : IsTrans Candidate byConfDesc := ⟨fun _ _ _ hab hbc => le_trans hbc hab⟩

/-- First-occurrence key dedup, as iterating a Python set/dict of the
document ids. -/
def dedupKeys (l : List String) : List String :=
  l.foldl (fun acc k => if k ∈ acc then acc else acc ++ [k]) []

/-- `VectorDB._merge_results`: union of the two key sets, per-document
confidence/match-type, stable sort by descending confidence. -/
def merge_results (semantic keyword : DocMap) : List Candidate :=
  let all_doc_ids := dedupKeys (semantic.map (·.1) ++ keyword.map (·.1))
  (all_doc_ids.map (mergeOne semantic keyword)).insertionSort byConfDesc

/-- `VectorDB.find_all_matching_documents`: hybrid search. -/
def find_all_matching_documents (query : String) (hits : List QueryHit)
    (threshold : ℚ) (stored : List StoredChunk) : List Candidate :=
  merge_results (semantic_search hits threshold) (keyword_search query stored)

/-! ## Chunker (`processor.py`, `DocumentProcessor`) -/

/-- Scrape metadata handed to the processor. -/
structure ScrapeMeta where
  url : String
  title : String
  dtype : String
deriving DecidableEq

/-- One chunk produced by `DocumentProcessor.process`, with the metadata
fields it attaches. -/
structure Chunk where
  chunk_id : String
  document_id : String
  text : String
  url : String
  title : String
  dtype : String
  chunk_index : Nat
  total_chunks : Nat
  char_count : Nat
  word_count : Nat
deriving DecidableEq

/-- `DocumentProcessor._generate_doc_id`: `md5(url)`.  The hash `H`
(hashlib.md5 hexdigest, external to the repository) is passed in as a
function parameter; every theorem below holds for an arbitrary `H`. -/
def generate_doc_id (H : String → String) (url : String) : String := H url

/-- `DocumentProcessor._generate_chunk_id`: `md5(f"{url}_{chunk_index}")`. -/
def generate_chunk_id (H : String → String) (url : String) (chunk_index : Nat) : String :=
  H (url ++ "_" ++ toString chunk_index)

/-- `DocumentProcessor.process`.  `clean` models `_clean_text` (regex
whitespace normalization) and `split` models the langchain
`RecursiveCharacterTextSplitter.split_text`; both are external to the
claims and passed as parameters. -/
def process (H : String → String) (split : String → List String)
    (clean : String → String) (text : String) (meta : ScrapeMeta) : List Chunk :=
  let t := clean text
  let chunks_text := split t
  let doc_id := generate_doc_id H meta.url
  chunks_text.enum.map (fun p =>
    { chunk_id := generate_chunk_id H meta.url p.1
      document_id := doc_id
      text := p.2
      url := meta.url
      title := meta.title
      dtype := meta.dtype
      chunk_index := p.1
      total_chunks := chunks_text.length
      char_count := p.2.length
      word_count := (splitWs p.2).length })

/-! ## Job records (`database.py MongoDB.update_job`, `main.py` tasks) -/

/-- A job document, with the fields the claims touch.  `α` is the shape
of the job-type-specific result payload. -/
structure JobRec (α : Type) where
  status : String
  result : Option α
  error : Option String
deriving DecidableEq

/-- `MongoDB.update_job`: sets `status` always, and `result`/`error`
only when they are not `None`. -/
def update_job {α : Type} (j : JobRec α) (status : String)
    (result : Option α) (error : Option String) : JobRec α :=
  { status := status
    result := match result with | some r => some r | none => j.result
    error := match error with | some e => some e | none => j.error }

/-- The shared `try/except` shape of `_bulk_index_task` and
`_flag_documents_task`: set `processing`, run the body, set `completed`
with the result, or — when any exception escapes the body — set
`failed` with `str(e)`.  `work` is the outcome of the body (its value
on success, the escaped exception's string on failure). -/
def run_job_task {α : Type} (j : JobRec α) (work : Except String α) : JobRec α :=
  match work with
  | .ok res => update_job (update_job j "processing" none none) "completed" (some res) none
  | .error e => update_job (update_job j "processing" none none) "failed" none (some e)

/-- The sequence of statuses written to the job document during one run. -/
def job_status_trace {α : Type} (work : Except String α) : List String :=
  match work with
  | .ok _ => ["processing", "completed"]
  | .error _ => ["processing", "failed"]

/-- Result payload of a bulk-index job: indexed count and
`failed_urls` as `(url, error)` pairs. -/
abbrev BulkResult := Nat × List (String × String)

/-- Result payload of a flag job (`result` dict of
`_flag_documents_task`): total_found, validated, flagged, analyzed. -/
structure FlagResult where
  total_found : Nat
  validated : Nat
  flagged : Nat
  analyzed : Nat
deriving DecidableEq

/-- `_bulk_index_task` job-status behaviour (`main.py` 77-125). -/
def bulk_index_task (j : JobRec BulkResult) (work : Except String BulkResult) :
    JobRec BulkResult :=
  run_job_task j work

/-- `_flag_documents_task` job-status behaviour (`main.py` 159-257). -/
def flag_documents_task (j : JobRec FlagResult) (work : Except String FlagResult) :
    JobRec FlagResult :=
  run_job_task j work

/-! ## Per-URL indexing body (`main.py` 85-112) -/

/-- The per-URL body of the bulk-index loop: scrape, process, index the
chunks (a no-op returning 0 for an empty chunk list), then read
`chunks[0]['document_id']` for the Mongo document record — an
`IndexError("list index out of range")` when there are no chunks.
`scrape` is the external fetcher: its exception, when it raises, is the
per-URL error. -/
def index_one_url (scrape : String → Except String (String × ScrapeMeta))
    (H : String → String) (split : String → List String) (clean : String → String)
    (url : String) : Except String String :=
  match scrape url with
  | .error e => .error e
  | .ok (text, meta) =>
    match process H split clean text meta with
    | [] => .error "list index out of range"
    | c :: _ => .ok c.document_id

/-- The bulk-index loop (`main.py` 85-118): each URL independently,
counting successes and collecting `failed_urls` entries. -/
def bulk_index_work (scrape : String → Except String (String × ScrapeMeta))
    (H : String → String) (split : String → List String) (clean : String → String)
    (urls : List String) : BulkResult :=
  urls.foldl (fun acc url =>
    match index_one_url scrape H split clean url with
    | .ok _ => (acc.1 + 1, acc.2)
    | .error e => (acc.1, acc.2 ++ [(url, e)])) (0, [])

/-! ## Candidate validation (`analyzer.py`, `main.py` 179-191) -/

/-- `DocumentAnalyzer.validate_law_reference`: the classifier call's
outcome is `.ok content` (the model reply) or `.error e` (any raised
exception).  On error the document is conservatively kept. -/
def validate_law_reference (outcome : Except String String) : Bool :=
  match outcome with
  | .error _ => true
  | .ok content => startsWithStr (upperStr (trimStr content)) "YES"

/-- The validation loop of `_flag_documents_task`: keep exactly the
candidates the validator accepts. -/
def filter_validated {δ : Type} (classify : δ → Except String String)
    (docs : List δ) : List δ :=
  docs.filter (fun d => validate_law_reference (classify d))

/-! ## Flag store (`database.py`, `MongoDB.create_flag`) -/

/-- A flag record with the fields `_flag_documents_task` always writes,
plus `reviewed_at`, which only `update_flag_status` sets. -/
structure FlagRec where
  document_id : String
  url : String
  title : String
  flagged_for_law : String
  what_changed : Option String
  confidence : ℚ
  status : String
  change_suggestions : List String
  reviewed_at : Option Nat
deriving DecidableEq

/-- Mongo `$set` with the fields of the new flag dict: every field the
flag dict carries is overwritten; `reviewed_at` is not in the dict and
survives from the stored record. -/
def set_flag_fields (old f : FlagRec) : FlagRec := { f with reviewed_at := old.reviewed_at }

/-- `MongoDB.create_flag`: `update_one({document_id}, {$set: flag},
upsert=True)` — update the first record with this `document_id`, or
append when none exists. -/
def create_flag : List FlagRec → FlagRec → List FlagRec
  | [], f => [f]
  | r :: rs, f =>
    if r.document_id = f.document_id then set_flag_fields r f :: rs
    else r :: create_flag rs f

/-- A sequence of flag operations applied to the store. -/
def create_flags (store : List FlagRec) (ops : List FlagRec) : List FlagRec :=
  ops.foldl create_flag store

/-- Mongo `find_one({document_id})`. -/
def find_flag (store : List FlagRec) (k : String) : Option FlagRec :=
  store.find? (fun r => r.document_id = k)

/-! ## Flag request intake (`models.py FlagRequest`, `main.py flag_documents`) -/

/-- `FlagRequest` as declared in `models.py`: `changed_law: str`,
`what_changed: Optional[str] = None`, `similarity_threshold: float =
0.3`.  No `Field` constraint restricts the threshold's range. -/
structure FlagRequest where
  changed_law : String
  what_changed : Option String
  similarity_threshold : ℚ
deriving DecidableEq

/-- Pydantic parse of a flag request body: the threshold field is only
required to be a float; when absent it defaults to 0.3. -/
def mkFlagRequest (changed_law : String) (what_changed : Option String)
    (similarity_threshold : Option ℚ) : FlagRequest :=
  ⟨changed_law, what_changed, similarity_threshold.getD (3/10)⟩

/-- One row of the jobs collection as `create_job` writes it for a flag
request. -/
structure JobEntry where
  job_id : String
  job_type : String
  params_law : String
  params_what_changed : Option String
  params_threshold : ℚ
  status : String
deriving DecidableEq

/-- Response body of `POST /flag`. -/
structure FlagResponse where
  job_id : String
  status : String
  total_documents_found : Nat
  message : String
deriving DecidableEq

/-- The synchronous part of the `flag_documents` endpoint (`main.py`
129-157): create the job record, schedule the task, return.  There is
no request validation beyond the pydantic field types. -/
def flag_documents_endpoint (jobs : List JobEntry) (req : FlagRequest)
    (job_id : String) : List JobEntry × FlagResponse :=
  (jobs ++ [⟨job_id, "flag_documents", req.changed_law, req.what_changed,
      req.similarity_threshold, "pending"⟩],
   ⟨job_id, "processing", 0, "Searching and flagging documents..."⟩)

/-! ## Specification-side summaries used by the retrieval theorems -/

/-- The surviving similarities (`1 - distance`, at or above the
threshold) of the hits whose metadata names document `k`. -/
def simsOf (threshold : ℚ) (hits : List QueryHit) (k : String) : List ℚ :=
  hits.filterMap (fun h =>
    if h.document_id = k ∧ threshold ≤ 1 - h.distance then some (1 - h.distance) else none)

/-- The surviving chunks (id and text) of the hits for document `k`. -/
def survivorsOf (threshold : ℚ) (hits : List QueryHit) (k : String) : List (String × String) :=
  hits.filterMap (fun h =>
    if h.document_id = k ∧ threshold ≤ 1 - h.distance then some (h.chunk_id, h.text) else none)

/-- Maximum of a list of rationals, `none` on the empty list. -/
def maxQ? : List ℚ → Option ℚ
  | [] => none
  | x :: xs => some (xs.foldl max x)

/-- `semantic.get(doc_id, {}).get('semantic_score', 0.0)`. -/
def semScoreOf (m : DocMap) (k : String) : ℚ :=
  ((lookupA m k).map (·.semantic_score)).getD 0

/-- `keyword.get(doc_id, {}).get('keyword_score', 0.0)`. -/
def kwScoreOf (m : DocMap) (k : String) : ℚ :=
  ((lookupA m k).map (·.keyword_score)).getD 0

/-! ## Helper lemmas -/

/-- A job run always ends terminal, never `processing`, with the body's
result on success and the escaped exception's string on failure; the
status trace writes exactly one terminal status. -/
theorem run_job_task_props {α : Type} (j : JobRec α) (w : Except String α) :
    ((run_job_task j w).status = "completed" ∨ (run_job_task j w).status = "failed") ∧
    (run_job_task j w).status ≠ "processing" ∧
    (∀ e, w = .error e →
      (run_job_task j w).status = "failed" ∧ (run_job_task j w).error = some e) ∧
    (∀ r, w = .ok r →
      (run_job_task j w).status = "completed" ∧ (run_job_task j w).result = some r) ∧
    (job_status_trace w).countP (fun s => s = "completed" || s = "failed") = 1 ∧
    (job_status_trace w).getLast? = some (run_job_task j w).status := by
  cases w with
  | ok r =>
    refine ⟨Or.inl rfl, (by decide : ("completed" : String) ≠ "processing"), ?_, ?_,
      (by decide : List.countP (fun s => s = "completed" || s = "failed")
        ["processing", "completed"] = 1), rfl⟩
    · intro e he; cases he
    · intro r' hr; cases hr; exact ⟨rfl, rfl⟩
  | error e =>
    refine ⟨Or.inr rfl, (by decide : ("failed" : String) ≠ "processing"), ?_, ?_,
      (by decide : List.countP (fun s => s = "completed" || s = "failed")
        ["processing", "failed"] = 1), rfl⟩
    · intro e' he; cases he; exact ⟨rfl, rfl⟩
    · intro r' hr; cases hr

/-! ## Claim theorems -/

/-- C6 counterexample: a flag request whose similarity threshold is 3/2
— outside (0,1] — is accepted by the request model (which has no range
constraint) and the endpoint creates a job for it, recording 3/2 as the
job's threshold parameter; it is not rejected before job creation. -/
theorem C6_counterexample :
    (1 : ℚ) < (mkFlagRequest "Some Act" none (some (3/2))).similarity_threshold ∧
    (flag_documents_endpoint [] (mkFlagRequest "Some Act" none (some (3/2))) "job-1").1.length = 1 ∧
    ((flag_documents_endpoint [] (mkFlagRequest "Some Act" none (some (3/2))) "job-1").1.map
      (·.params_threshold)) = [3/2] :=
  ⟨show (1 : ℚ) < 3/2 by norm_num, rfl, rfl⟩

/-- C6 (amended): the flag request's similarity threshold is only
type-validated as a float (defaulting to 0.3 when absent); no range
check is performed, so the endpoint synchronously creates exactly one
job carrying the request's threshold — whatever its value — and
returns a response, for every request. -/
theorem C6_threshold_never_rejected :
    ∀ (jobs : List JobEntry) (req : FlagRequest) (job_id : String),
    (flag_documents_endpoint jobs req job_id).1 =
      jobs ++ [⟨job_id, "flag_documents", req.changed_law, req.what_changed,
        req.similarity_threshold, "pending"⟩] ∧
    (flag_documents_endpoint jobs req job_id).2 =
      ⟨job_id, "processing", 0, "Searching and flagging documents..."⟩ ∧
    (∀ law wc, (mkFlagRequest law wc none).similarity_threshold = 3/10) :=
  fun _ _ _ => ⟨rfl, rfl, fun _ _ => rfl⟩

/-- C7 counterexample: a job body that escapes with an exception whose
string is empty (as `str(Exception())` is) still reaches `failed`, but
its error field holds the empty string — the claim's "non-empty error
string" fails at this input. -/
theorem C7_counterexample :
    (bulk_index_task ⟨"pending", none, none⟩ (.error "")).status = "failed" ∧
    (bulk_index_task ⟨"pending", none, none⟩ (.error "")).error = some "" ∧
    ¬ ∃ s, (bulk_index_task ⟨"pending", none, none⟩ (.error "")).error = some s ∧ s ≠ "" := by
  refine ⟨rfl, rfl, ?_⟩
  rintro ⟨s, hs, hne⟩
  rw [show (bulk_index_task ⟨"pending", none, none⟩ (.error "")).error = some "" from rfl] at hs
  exact hne (Option.some.inj hs).symm

/-- C7 (amended): for every job body (bulk-index or flag) in which an
unhandled exception escapes partway through, the job still reaches the
terminal status "failed" carrying the escaped exception's error string
(non-empty whenever that string is), and never remains in status
"processing"; every job body that begins work writes exactly one
terminal status. -/
theorem C7_job_reaches_terminal :
    ∀ (jb : JobRec BulkResult) (wb : Except String BulkResult)
      (jf : JobRec FlagResult) (wf : Except String FlagResult),
    (((bulk_index_task jb wb).status = "completed" ∨
        (bulk_index_task jb wb).status = "failed") ∧
      (bulk_index_task jb wb).status ≠ "processing" ∧
      (∀ e, wb = .error e → (bulk_index_task jb wb).status = "failed" ∧
        (bulk_index_task jb wb).error = some e) ∧
      (job_status_trace wb).countP (fun s => s = "completed" || s = "failed") = 1) ∧
    (((flag_documents_task jf wf).status = "completed" ∨
        (flag_documents_task jf wf).status = "failed") ∧
      (flag_documents_task jf wf).status ≠ "processing" ∧
      (∀ e, wf = .error e → (flag_documents_task jf wf).status = "failed" ∧
        (flag_documents_task jf wf).error = some e) ∧
      (job_status_trace wf).countP (fun s => s = "completed" || s = "failed") = 1) := by
  intro jb wb jf wf
  obtain ⟨hb1, hb2, hb3, _, hb5, _⟩ := run_job_task_props jb wb
  obtain ⟨hf1, hf2, hf3, _, hf5, _⟩ := run_job_task_props jf wf
  exact ⟨⟨hb1, hb2, hb3, hb5⟩, ⟨hf1, hf2, hf3, hf5⟩⟩

/-- C7 witness: the amended theorem applied to a bulk job failing with
"boom" and a flag job failing with "timeout". -/
theorem C7_job_reaches_terminal_witness :
    (bulk_index_task ⟨"pending", none, none⟩ (.error "boom")).status = "failed" ∧
    (bulk_index_task ⟨"pending", none, none⟩ (.error "boom")).error = some "boom" ∧
    (flag_documents_task ⟨"pending", none, none⟩ (.error "timeout")).status = "failed" := by
  have h := C7_job_reaches_terminal ⟨"pending", none, none⟩ (.error "boom")
    ⟨"pending", none, none⟩ (.error "timeout")
  obtain ⟨⟨_, _, hb, _⟩, ⟨_, _, hf, _⟩⟩ := h
  exact ⟨(hb "boom" rfl).1, (hb "boom" rfl).2, (hf "timeout" rfl).1⟩

/-- C8: a candidate is kept whenever the classifier call raises (fail
open), and it is dropped exactly when the classifier succeeds and its
reply, stripped and upper-cased, does not start with "YES". -/
theorem C8_validation_fail_open :
    ∀ {δ : Type} (classify : δ → Except String String) (docs : List δ) (d : δ),
    d ∈ docs →
    (∀ e, classify d = .error e → d ∈ filter_validated classify docs) ∧
    (d ∉ filter_validated classify docs ↔
      ∃ c, classify d = .ok c ∧ startsWithStr (upperStr (trimStr c)) "YES" = false) := by
  intro δ classify docs d hd
  constructor
  · intro e he
    rw [filter_validated, List.mem_filter]
    exact ⟨hd, by rw [he]; rfl⟩
  · rw [filter_validated, List.mem_filter]
    cases hc : classify d with
    | error e =>
      simp only [hd, true_and, validate_law_reference, hc]
      constructor
      · intro h; exact absurd trivial h
      · rintro ⟨c, hcc, _⟩; cases hcc
    | ok c =>
      simp only [hd, true_and, validate_law_reference, hc]
      constructor
      · intro h
        refine ⟨c, rfl, ?_⟩
        cases hsw : startsWithStr (upperStr (trimStr c)) "YES" with
        | true => exact absurd hsw h
        | false => rfl
      · rintro ⟨c', hcc, hsw⟩
        cases hcc
        intro h
        rw [h] at hsw
        cases hsw

/-- C8 witness: with a classifier that raises for "d1" and answers "no
reference" for "d2", the first candidate is kept and the second
dropped. -/
theorem C8_validation_fail_open_witness :
    let classify : String → Except String String :=
      fun d => if d = "d1" then .error "api down" else .ok "no reference"
    ("d1" ∈ filter_validated classify ["d1", "d2"]) ∧
    ("d2" ∉ filter_validated classify ["d1", "d2"]) := by
  intro classify
  have h1 := C8_validation_fail_open classify ["d1", "d2"] "d1" (by decide)
  have h2 := C8_validation_fail_open classify ["d1", "d2"] "d2" (by decide)
  exact ⟨h1.1 "api down" rfl, h2.2.mpr ⟨"no reference", rfl, rfl⟩⟩

/-- Closed form of the bulk-index loop: successes are counted, failures
are collected in order with their error strings. -/
theorem bulk_fold_spec (step : String → Except String String) :
    ∀ (urls : List String) (n : Nat) (fl : List (String × String)),
    (urls.foldl (fun acc url =>
      match step url with
      | .ok _ => (acc.1 + 1, acc.2)
      | .error e => (acc.1, acc.2 ++ [(url, e)])) (n, fl)) =
    (n + urls.countP (fun u => (step u).isOk),
     fl ++ urls.filterMap (fun u =>
       match step u with
       | .ok _ => none
       | .error e => some (u, e))) := by
  intro urls
  induction urls with
  | nil => intro n fl; simp
  | cons u us ih =>
    intro n fl
    cases hstep : step u with
    | ok v =>
      simp only [List.foldl_cons, hstep, List.countP_cons, List.filterMap_cons, ih]
      simp [hstep, Except.isOk, Except.toBool]
      omega
    | error e =>
      simp only [List.foldl_cons, hstep, List.countP_cons, List.filterMap_cons, ih]
      simp [hstep, Except.isOk, Except.toBool, List.append_assoc]

/-- C5: chunk identity is deterministic and positional: every chunk's
document id is the hash of the URL alone, the chunk id at index `i` is
the hash of `url ++ "_" ++ i` — a function of (URL, i) only — so two
runs of the chunker (even on different texts for the same URL) assign
identical ids at identical positions. -/
theorem C5_chunk_identity_deterministic :
    ∀ (H : String → String) (split : String → List String) (clean : String → String)
      (meta : ScrapeMeta) (text text2 : String),
    (∀ ch ∈ process H split clean text meta,
      ch.document_id = generate_doc_id H meta.url) ∧
    (∀ (i : Nat) (hi : i < (process H split clean text meta).length),
      ((process H split clean text meta).get ⟨i, hi⟩).chunk_id =
        generate_chunk_id H meta.url i) ∧
    (∀ (i : Nat) (hi : i < (process H split clean text meta).length)
       (hi2 : i < (process H split clean text2 meta).length),
      ((process H split clean text meta).get ⟨i, hi⟩).chunk_id =
        ((process H split clean text2 meta).get ⟨i, hi2⟩).chunk_id) := by
  intro H split clean meta text text2
  have key : ∀ (txt : String) (i : Nat) (hi : i < (process H split clean txt meta).length),
      ((process H split clean txt meta).get ⟨i, hi⟩).chunk_id =
        generate_chunk_id H meta.url i := by
    intro txt i hi
    have hi' := hi
    simp only [process, List.length_map, List.enum_length] at hi'
    simp [process, List.getElem_map, List.getElem_enum]
  refine ⟨?_, key text, ?_⟩
  · intro ch hch
    simp only [process, List.mem_map] at hch
    obtain ⟨p, _, rfl⟩ := hch
    rfl
  · intro i hi hi2
    rw [key text i hi, key text2 i hi2]

/-- C5 witness: the theorem at a concrete hash, splitter and text. -/
theorem C5_chunk_identity_deterministic_witness :
    (∀ ch ∈ process (fun s => s) (fun t => [t]) (fun t => t) "body" ⟨"u", "t", "webpage"⟩,
      ch.document_id = generate_doc_id (fun s => s) "u") ∧
    ((process (fun s => s) (fun t => [t]) (fun t => t) "body" ⟨"u", "t", "webpage"⟩).get
      ⟨0, by decide⟩).chunk_id = generate_chunk_id (fun s => s) "u" 0 := by
  have h := C5_chunk_identity_deterministic (fun s => s) (fun t => [t]) (fun t => t)
    ⟨"u", "t", "webpage"⟩ "body" "other"
  exact ⟨h.1, h.2.1 0 (by decide)⟩

/-- C10: a URL whose scraped text yields zero chunks is recorded in
`failed_urls` with the `IndexError` message and is not counted as
indexed: the per-URL outcome is a failure, and the job's indexed count
counts only the URLs whose outcome succeeded. -/
theorem C10_zero_chunks_fails_url :
    ∀ (scrape : String → Except String (String × ScrapeMeta))
      (H : String → String) (split : String → List String) (clean : String → String)
      (urls : List String) (url : String) (text : String) (meta : ScrapeMeta),
    url ∈ urls →
    scrape url = .ok (text, meta) →
    split (clean text) = [] →
    (url, "list index out of range") ∈ (bulk_index_work scrape H split clean urls).2 ∧
    (bulk_index_work scrape H split clean urls).1 =
      urls.countP (fun u => (index_one_url scrape H split clean u).isOk) ∧
    (index_one_url scrape H split clean url).isOk = false := by
  intro scrape H split clean urls url text meta hmem hscrape hsplit
  have hstep : index_one_url scrape H split clean url = .error "list index out of range" := by
    simp [index_one_url, hscrape, process, hsplit]
  have hspec := bulk_fold_spec (index_one_url scrape H split clean) urls 0 []
  refine ⟨?_, ?_, by rw [hstep]; rfl⟩
  · show (url, "list index out of range") ∈ (bulk_index_work scrape H split clean urls).2
    rw [bulk_index_work, hspec]
    simp only [List.nil_append]
    exact List.mem_filterMap.mpr ⟨url, hmem, by rw [hstep]⟩
  · rw [bulk_index_work, hspec]
    simp

/-- C10 witness: one good URL and one whose text chunks to nothing. -/
theorem C10_zero_chunks_fails_url_witness :
    let scrape : String → Except String (String × ScrapeMeta) :=
      fun u => .ok (if u = "u2" then "" else "body", ⟨u, "t", "webpage"⟩)
    let split : String → List String := fun t => if t = "" then [] else [t]
    ("u2", "list index out of range") ∈
      (bulk_index_work scrape (fun s => s) split (fun t => t) ["u1", "u2"]).2 ∧
    (bulk_index_work scrape (fun s => s) split (fun t => t) ["u1", "u2"]).1 =
      (["u1", "u2"].countP
        (fun u => (index_one_url scrape (fun s => s) split (fun t => t) u).isOk)) := by
  intro scrape split
  have h := C10_zero_chunks_fails_url scrape (fun s => s) split (fun t => t)
    ["u1", "u2"] "u2" "" ⟨"u2", "t", "webpage"⟩ (by decide) rfl rfl
  exact ⟨h.1, h.2.1⟩

/-- A `foldl min` is below its initial value. -/
theorem foldl_min_le_self : ∀ (xs : List Nat) (x : Nat), xs.foldl Nat.min x ≤ x := by
  intro xs
  induction xs with
  | nil => intro x; exact le_refl x
  | cons y ys ih => intro x; exact le_trans (ih (Nat.min x y)) (Nat.min_le_left x y)

/-- A `foldl min` is below every list element. -/
theorem foldl_min_le_mem : ∀ (xs : List Nat) (x y : Nat), y ∈ xs → xs.foldl Nat.min x ≤ y := by
  intro xs
  induction xs with
  | nil => intro x y hy; cases hy
  | cons z zs ih =>
    intro x y hy
    rcases List.mem_cons.mp hy with rfl | hy'
    · exact le_trans (foldl_min_le_self zs (Nat.min x y)) (Nat.min_le_right x y)
    · exact ih (Nat.min x z) y hy'

/-- A `foldl min` is attained by the initial value or a list element. -/
theorem foldl_min_mem : ∀ (xs : List Nat) (x : Nat), xs.foldl Nat.min x ∈ x :: xs := by
  intro xs
  induction xs with
  | nil => intro x; exact List.mem_singleton.mpr rfl
  | cons y ys ih =>
    intro x
    have h := ih (Nat.min x y)
    rcases List.mem_cons.mp h with heq | hmem
    · rcases min_choice x y with hx | hy
      · exact List.mem_cons.mpr (Or.inl (heq.trans hx))
      · exact List.mem_cons.mpr (Or.inr (List.mem_cons.mpr (Or.inl (heq.trans hy))))
    · exact List.mem_cons.mpr (Or.inr (List.mem_cons.mpr (Or.inr hmem)))

/-- `minNat?` returns a member that is a lower bound. -/
theorem minNat?_spec : ∀ (l : List Nat) (m : Nat),
    minNat? l = some m → m ∈ l ∧ ∀ x ∈ l, m ≤ x := by
  intro l m h
  cases l with
  | nil => cases h
  | cons x xs =>
    have hm : xs.foldl Nat.min x = m := Option.some.inj h
    constructor
    · rw [← hm]; exact foldl_min_mem xs x
    · intro y hy
      rcases List.mem_cons.mp hy with rfl | hy'
      · rw [← hm]; exact foldl_min_le_self xs y
      · rw [← hm]; exact foldl_min_le_mem xs x y hy'

/-- C1 counterexample: the query "Illinois Domestic Violence Act" has 4
significant tokens, so the claim's threshold is `max(2, ceil(0.7×4)) =
3`; yet a chunk containing only 2 of the 4 tokens qualifies and is
scored (the code floors: `max(2, int(0.7×4)) = 2`). -/
theorem C1_counterexample :
    (significantWords "Illinois Domestic Violence Act").length = 4 ∧
    max 2 ⌈((7 : ℚ)/10) * 4⌉₊ = 3 ∧
    (foundWords (significantWords "Illinois Domestic Violence Act")
      "illinois domestic law update").length = 2 ∧
    chunkKeywordScore (significantWords "Illinois Domestic Violence Act")
      "illinois domestic law update" = some 1 := by
  refine ⟨by decide, ?_, by decide, rfl⟩
  have h : ⌈((7 : ℚ)/10) * 4⌉₊ = 3 := by
    rw [Nat.ceil_eq_iff (by norm_num)]
    norm_num
  rw [h]
  decide

/-- C1 (amended): a chunk qualifies for scoring only if at least
`max(2, int(0.7 × n))` distinct query tokens occur in it — `int`
truncates, it does not take the ceiling — and in particular a chunk
containing only 1 of 4 significant query tokens is still excluded. -/
theorem C1_qualification_floor_threshold :
    ∀ (query_words : List String) (doc_text : String),
    (∀ s : ℚ, chunkKeywordScore query_words doc_text = some s →
      required_count query_words ≤ (foundWords query_words doc_text).length) ∧
    (query_words.length = 4 → (foundWords query_words doc_text).length = 1 →
      chunkKeywordScore query_words doc_text = none) := by
  intro query_words doc_text
  constructor
  · intro s h
    by_contra hlt
    push_neg at hlt
    simp only [chunkKeywordScore] at h
    rw [if_pos hlt] at h
    cases h
  · intro h4 h1
    have hlt : (foundWords query_words doc_text).length < required_count query_words := by
      rw [h1, required_count, h4]
      decide
    simp only [chunkKeywordScore]
    rw [if_pos hlt]

/-- C1 witness: the amended theorem at the 2-of-4 chunk (which must
meet the floored threshold) and at a 1-of-4 chunk (excluded). -/
theorem C1_qualification_floor_threshold_witness :
    required_count (significantWords "Illinois Domestic Violence Act") ≤
      (foundWords (significantWords "Illinois Domestic Violence Act")
        "illinois domestic law update").length ∧
    chunkKeywordScore (significantWords "Illinois Domestic Violence Act")
      "illinois weather report" = none := by
  have h1 := (C1_qualification_floor_threshold
    (significantWords "Illinois Domestic Violence Act") "illinois domestic law update").1 1 rfl
  have h2 := (C1_qualification_floor_threshold
    (significantWords "Illinois Domestic Violence Act") "illinois weather report").2
    (by decide) (by decide)
  exact ⟨h1, h2⟩

/-- C4: every scored chunk's score comes from the minimal positional
span over the present query tokens (minimal over every choice of one
occurrence per present token): span ≤ 15 gives raw score 1, ≤ 30 gives
0.7, ≤ 45 gives 0.4, and the raw score is multiplied by 1.2 and capped
at 1 exactly when all significant query tokens were found; a chunk
whose minimal span exceeds 45 is discarded. -/
theorem C4_span_to_score :
    ∀ (query_words : List String) (doc_text : String),
    (∀ s : ℚ, chunkKeywordScore query_words doc_text = some s →
      ∃ span,
        minSpanOf ((foundWords query_words doc_text).map
          (positionsOf (chunkWords doc_text))) = some span ∧
        (∃ c ∈ combos ((foundWords query_words doc_text).map
          (positionsOf (chunkWords doc_text))), spanOf c = span) ∧
        (∀ c ∈ combos ((foundWords query_words doc_text).map
          (positionsOf (chunkWords doc_text))), span ≤ spanOf c) ∧
        span ≤ 45 ∧
        s = (if (foundWords query_words doc_text).length = query_words.length
             then min 1 ((if span ≤ 15 then (1 : ℚ) else if span ≤ 30 then 7/10 else 2/5)
               * (12/10))
             else (if span ≤ 15 then (1 : ℚ) else if span ≤ 30 then 7/10 else 2/5))) ∧
    (∀ span,
      minSpanOf ((foundWords query_words doc_text).map
        (positionsOf (chunkWords doc_text))) = some span →
      45 < span →
      chunkKeywordScore query_words doc_text = none) := by
  intro query_words doc_text
  constructor
  · intro s h
    simp only [chunkKeywordScore] at h
    by_cases hga : (foundWords query_words doc_text).length < required_count query_words
    · rw [if_pos hga] at h; cases h
    · rw [if_neg hga] at h
      cases hms : minSpanOf ((foundWords query_words doc_text).map
          (positionsOf (chunkWords doc_text))) with
      | none => rw [hms] at h; cases h
      | some span =>
        rw [hms] at h
        simp only [Option.map] at h
        have hspec := minNat?_spec _ span hms
        obtain ⟨hmem, hlb⟩ := hspec
        obtain ⟨c, hc, hcs⟩ := List.mem_map.mp hmem
        refine ⟨span, rfl, ⟨c, hc, hcs⟩, ?_, ?_, ?_⟩
        · intro c' hc'
          exact hlb (spanOf c') (List.mem_map_of_mem spanOf hc')
        · by_cases h15 : span ≤ 15
          · omega
          · by_cases h30 : span ≤ 30
            · omega
            · by_cases h45 : span ≤ 45
              · exact h45
              · rw [if_neg h15, if_neg h30, if_neg h45] at h; cases h
        · by_cases h15 : span ≤ 15
          · rw [if_pos h15] at h
            rw [if_pos h15]
            exact (Option.some.inj h).symm
          · by_cases h30 : span ≤ 30
            · rw [if_neg h15, if_pos h30] at h
              rw [if_neg h15, if_pos h30]
              exact (Option.some.inj h).symm
            · by_cases h45 : span ≤ 45
              · rw [if_neg h15, if_neg h30, if_pos h45] at h
                rw [if_neg h15, if_neg h30]
                exact (Option.some.inj h).symm
              · rw [if_neg h15, if_neg h30, if_neg h45] at h; cases h
  · intro span hms h45
    simp only [chunkKeywordScore]
    by_cases hga : (foundWords query_words doc_text).length < required_count query_words
    · rw [if_pos hga]
    · rw [if_neg hga, hms]
      simp only [Option.map]
      have h15 : ¬ span ≤ 15 := by omega
      have h30 : ¬ span ≤ 30 := by omega
      have h45' : ¬ span ≤ 45 := by omega
      rw [if_neg h15, if_neg h30, if_neg h45']

/-- C4 witness: the boosted full-coverage chunk yields a minimal span
within 45; a two-token chunk whose tokens sit 47 words apart is
discarded. -/
theorem C4_span_to_score_witness :
    (∃ span,
      minSpanOf ((foundWords (significantWords "Illinois Domestic Violence Act")
        "the illinois domestic violence act").map
        (positionsOf (chunkWords "the illinois domestic violence act"))) = some span ∧
      span ≤ 45) ∧
    chunkKeywordScore (significantWords "Quantum Entanglement")
      "quantum gap1 gap2 gap3 gap4 gap5 gap6 gap7 gap8 gap9 gap10 gap11 gap12 gap13 gap14 gap15 gap16 gap17 gap18 gap19 gap20 gap21 gap22 gap23 gap24 gap25 gap26 gap27 gap28 gap29 gap30 gap31 gap32 gap33 gap34 gap35 gap36 gap37 gap38 gap39 gap40 gap41 gap42 gap43 gap44 gap45 gap46 entanglement" = none := by
  have h1 := (C4_span_to_score (significantWords "Illinois Domestic Violence Act")
    "the illinois domestic violence act").1 (min 1 (1 * (12/10))) rfl
  obtain ⟨span, hspan, _, _, h45, _⟩ := h1
  have h2 := (C4_span_to_score (significantWords "Quantum Entanglement")
    "quantum gap1 gap2 gap3 gap4 gap5 gap6 gap7 gap8 gap9 gap10 gap11 gap12 gap13 gap14 gap15 gap16 gap17 gap18 gap19 gap20 gap21 gap22 gap23 gap24 gap25 gap26 gap27 gap28 gap29 gap30 gap31 gap32 gap33 gap34 gap35 gap36 gap37 gap38 gap39 gap40 gap41 gap42 gap43 gap44 gap45 gap46 entanglement").2
    47 rfl (by decide)
  exact ⟨⟨span, hspan, h45⟩, h2⟩

/-- Upserting finds the new field values under the record's own key. -/
theorem find_flag_create_self : ∀ (store : List FlagRec) (f : FlagRec),
    ∃ r, find_flag (create_flag store f) f.document_id = some r ∧
      r.document_id = f.document_id ∧ r.flagged_for_law = f.flagged_for_law ∧
      r.confidence = f.confidence := by
  intro store f
  induction store with
  | nil =>
    refine ⟨f, ?_, rfl, rfl, rfl⟩
    simp [create_flag, find_flag]
  | cons r rs ih =>
    by_cases hk : r.document_id = f.document_id
    · refine ⟨set_flag_fields r f, ?_, rfl, rfl, rfl⟩
      simp [create_flag, hk, find_flag, set_flag_fields]
    · obtain ⟨r', hr', hprops⟩ := ih
      refine ⟨r', ?_, hprops⟩
      simp only [create_flag, if_neg hk, find_flag, List.find?_cons]
      rw [find_flag] at hr'
      simp [hk, hr']

/-- Upserting leaves every other key's first record unchanged. -/
theorem find_flag_create_other : ∀ (store : List FlagRec) (f : FlagRec) (k : String),
    k ≠ f.document_id →
    find_flag (create_flag store f) k = find_flag store k := by
  intro store f k hk
  induction store with
  | nil => simp [create_flag, find_flag, Ne.symm hk]
  | cons r rs ih =>
    by_cases hrk : r.document_id = f.document_id
    · simp only [create_flag, if_pos hrk, find_flag, List.find?_cons]
      have h1 : ((set_flag_fields r f).document_id = k) = False := by
        simp [set_flag_fields, Ne.symm hk]
      have h2 : (r.document_id = k) = False := by
        simp [hrk, Ne.symm hk]
      simp [h1, h2]
    · simp only [create_flag, if_neg hrk, find_flag, List.find?_cons] at ih ⊢
      by_cases hr : r.document_id = k
      · simp [hr]
      · simp only [hr]
        exact ih

/-- The key multiset after an upsert: unchanged when the key exists,
the new key appended otherwise. -/
theorem create_flag_keys : ∀ (store : List FlagRec) (f : FlagRec),
    (create_flag store f).map (·.document_id) =
      (if f.document_id ∈ store.map (·.document_id)
       then store.map (·.document_id)
       else store.map (·.document_id) ++ [f.document_id]) := by
  intro store f
  induction store with
  | nil => simp [create_flag]
  | cons r rs ih =>
    by_cases hk : r.document_id = f.document_id
    · simp [create_flag, hk, set_flag_fields]
    · simp only [create_flag, if_neg hk, List.map_cons, ih]
      have : (f.document_id ∈ r.document_id :: rs.map (·.document_id)) =
          (f.document_id ∈ rs.map (·.document_id)) := by
        simp [List.mem_cons, Ne.symm hk]
      by_cases hmem : f.document_id ∈ rs.map (·.document_id)
      · simp [hmem, this]
      · simp [hmem, this]

/-- Nodup keys are preserved by an upsert. -/
theorem create_flag_nodup (store : List FlagRec) (f : FlagRec)
    (h : (store.map (·.document_id)).Nodup) :
    ((create_flag store f).map (·.document_id)).Nodup := by
  rw [create_flag_keys]
  by_cases hmem : f.document_id ∈ store.map (·.document_id)
  · simpa [hmem] using h
  · simp [hmem, List.nodup_append, h]

/-- Nodup keys are preserved by any sequence of upserts. -/
theorem create_flags_nodup : ∀ (ops : List FlagRec) (store : List FlagRec),
    (store.map (·.document_id)).Nodup →
    ((create_flags store ops).map (·.document_id)).Nodup := by
  intro ops
  induction ops with
  | nil => intro store h; exact h
  | cons f fs ih =>
    intro store h
    exact ih (create_flag store f) (create_flag_nodup store f h)

/-- Nodup keys bound the number of records under any one key by one. -/
theorem nodup_keys_countP : ∀ (l : List FlagRec) (k : String),
    ((l.map (·.document_id)).Nodup) →
    l.countP (fun r => r.document_id = k) ≤ 1 := by
  intro l k
  induction l with
  | nil => intro _; simp
  | cons r rs ih =>
    intro h
    rw [List.map_cons, List.nodup_cons] at h
    obtain ⟨hnot, hrest⟩ := h
    rw [List.countP_cons]
    by_cases hk : r.document_id = k
    · have hz : rs.countP (fun x => x.document_id = k) = 0 := by
        rw [List.countP_eq_zero]
        intro a ha hpa
        apply hnot
        rw [List.mem_map]
        refine ⟨a, ha, ?_⟩
        have hak : a.document_id = k := by simpa using hpa
        rw [hak, hk]
      simp [hz, hk]
    · simpa [hk] using ih hrest

/-- Latest-wins over a sequence of upserts: the record found for key
`k` carries the field values of the last operation on `k`. -/
theorem create_flags_latest : ∀ (ops : List FlagRec) (store : List FlagRec)
    (k : String) (f : FlagRec),
    (ops.filter (fun g => g.document_id = k)).getLast? = some f →
    ∃ r, find_flag (create_flags store ops) k = some r ∧
      r.document_id = k ∧ r.flagged_for_law = f.flagged_for_law ∧
      r.confidence = f.confidence := by
  intro ops
  induction ops using List.reverseRecOn with
  | nil => intro store k f h; cases h
  | append_singleton fs g ih =>
    intro store k f h
    have hsplit : create_flags store (fs ++ [g]) = create_flag (create_flags store fs) g := by
      simp [create_flags, List.foldl_append]
    rw [hsplit]
    rw [List.filter_append] at h
    by_cases hk : g.document_id = k
    · have hfg : List.filter (fun g => g.document_id = k) [g] = [g] := by simp [hk]
      rw [hfg, List.getLast?_concat] at h
      have hgf : g = f := Option.some.inj h
      obtain ⟨r, hr, hd, hl, hc⟩ := find_flag_create_self (create_flags store fs) g
      refine ⟨r, ?_, ?_, ?_, ?_⟩
      · rw [← hk]; exact hr
      · rw [hd, hk]
      · rw [hl, hgf]
      · rw [hc, hgf]
    · have hfg : List.filter (fun g => g.document_id = k) [g] = [] := by simp [hk]
      rw [hfg, List.append_nil] at h
      rw [find_flag_create_other (create_flags store fs) g k (Ne.symm hk)]
      exact ih store k f h

/-- C9: the flag store holds at most one record per document id
(upserts preserve nodup keys, so each key matches at most one record),
and after any sequence of flag operations the record found for a key
carries the `flagged_for_law` and `confidence` of the latest operation
on that key — overwrite, not append. -/
theorem C9_flag_upsert_latest_wins :
    ∀ (store : List FlagRec) (ops : List FlagRec) (k : String) (f : FlagRec),
    ((store.map (·.document_id)).Nodup →
      ((create_flags store ops).map (·.document_id)).Nodup ∧
      (create_flags store ops).countP (fun r => r.document_id = k) ≤ 1) ∧
    ((ops.filter (fun g => g.document_id = k)).getLast? = some f →
      ∃ r, find_flag (create_flags store ops) k = some r ∧
        r.document_id = k ∧ r.flagged_for_law = f.flagged_for_law ∧
        r.confidence = f.confidence) := by
  intro store ops k f
  constructor
  · intro h
    have hn := create_flags_nodup ops store h
    exact ⟨hn, nodup_keys_countP _ k hn⟩
  · exact create_flags_latest ops store k f

/-- C9 witness: flagging the same document twice leaves one record,
carrying the second operation's law and confidence. -/
theorem C9_flag_upsert_latest_wins_witness :
    ((create_flags []
      [⟨"d1", "u", "t", "Old Act", none, 1, "flagged", [], none⟩,
       ⟨"d1", "u", "t", "New Act", none, 2, "flagged", [], none⟩]).map
        (·.document_id)).Nodup ∧
    ∃ r, find_flag (create_flags []
      [⟨"d1", "u", "t", "Old Act", none, 1, "flagged", [], none⟩,
       ⟨"d1", "u", "t", "New Act", none, 2, "flagged", [], none⟩]) "d1" = some r ∧
      r.document_id = "d1" ∧ r.flagged_for_law = "New Act" ∧ r.confidence = 2 := by
  have h := C9_flag_upsert_latest_wins []
    [⟨"d1", "u", "t", "Old Act", none, 1, "flagged", [], none⟩,
     ⟨"d1", "u", "t", "New Act", none, 2, "flagged", [], none⟩] "d1"
    ⟨"d1", "u", "t", "New Act", none, 2, "flagged", [], none⟩
  exact ⟨(h.1 (by simp)).1, h.2 rfl⟩

/-- Appending an entry under another key does not change a lookup. -/
theorem lookupA_append_ne (m : DocMap) (k q : String) (v : DocMatch) (hne : k ≠ q) :
    lookupA (m ++ [(q, v)]) k = lookupA m k := by
  rw [lookupA, lookupA, List.find?_append]
  cases hf : m.find? (fun p => p.1 = k) with
  | some p => rfl
  | none =>
    have : List.find? (fun p => p.1 = k) [(q, v)] = none := by
      simp [List.find?_cons, Ne.symm hne]
    simp [this]

/-- Appending an entry under a fresh key makes it the lookup result. -/
theorem lookupA_append_self (m : DocMap) (k : String) (v : DocMatch)
    (h : lookupA m k = none) :
    lookupA (m ++ [(k, v)]) k = some v := by
  rw [lookupA, List.find?_append]
  rw [lookupA] at h
  cases hf : m.find? (fun p => p.1 = k) with
  | some p => rw [hf] at h; cases h
  | none => simp [List.find?_cons]

/-- Updating at a key maps its lookup result. -/
theorem lookupA_update_self (m : DocMap) (k : String) (f : DocMatch → DocMatch) :
    lookupA (updateA m k f) k = (lookupA m k).map f := by
  induction m with
  | nil => rfl
  | cons p ps ih =>
    by_cases hp : p.1 = k
    · simp [updateA, lookupA, List.find?_cons, hp]
    · simp only [updateA, lookupA, List.map_cons, if_neg hp, List.find?_cons] at ih ⊢
      simp only [hp]
      simpa [updateA, lookupA] using ih

/-- Updating at another key does not change a lookup. -/
theorem lookupA_update_ne (m : DocMap) (k q : String) (f : DocMatch → DocMatch)
    (hne : k ≠ q) :
    lookupA (updateA m q f) k = lookupA m k := by
  induction m with
  | nil => rfl
  | cons p ps ih =>
    by_cases hp : p.1 = q
    · have hpk : (p.1 = k) = False := by simp [hp, Ne.symm hne]
      simp only [updateA, lookupA, List.map_cons, if_pos hp, List.find?_cons] at ih ⊢
      simp only [hpk]
      simpa [updateA, lookupA] using ih
    · simp only [updateA, lookupA, List.map_cons, if_neg hp, List.find?_cons] at ih ⊢
      by_cases hpk : p.1 = k
      · simp [hpk]
      · simp only [hpk]
        simpa [updateA, lookupA] using ih

/-- `maxQ?` over an appended element. -/
theorem maxQ?_append_singleton (l : List ℚ) (x : ℚ) :
    maxQ? (l ++ [x]) = some ((maxQ? l).elim x (fun m => max m x)) := by
  cases l with
  | nil => rfl
  | cons y ys => simp [maxQ?, List.foldl_append]

/-- The two survivor summaries are empty together. -/
theorem simsOf_nil_iff (threshold : ℚ) (hits : List QueryHit) (k : String) :
    simsOf threshold hits k = [] ↔ survivorsOf threshold hits k = [] := by
  rw [simsOf, survivorsOf, List.filterMap_eq_nil_iff, List.filterMap_eq_nil_iff]
  constructor
  · intro H a ha
    have := H a ha
    by_cases hc : a.document_id = k ∧ threshold ≤ 1 - a.distance
    · rw [if_pos hc] at this; cases this
    · rw [if_neg hc]
  · intro H a ha
    have := H a ha
    by_cases hc : a.document_id = k ∧ threshold ≤ 1 - a.distance
    · rw [if_pos hc] at this; cases this
    · rw [if_neg hc]

/-- `semanticStep` on a hit below the threshold is a no-op. -/
theorem semanticStep_skip_low (threshold : ℚ) (S : DocMap) (h : QueryHit)
    (hth : ¬ threshold ≤ 1 - h.distance) :
    semanticStep threshold S h = S := by
  simp only [semanticStep]
  rw [if_neg hth]

/-- `semanticStep` on a hit with empty document id is a no-op. -/
theorem semanticStep_skip_noid (threshold : ℚ) (S : DocMap) (h : QueryHit)
    (hth : threshold ≤ 1 - h.distance) (hde : h.document_id = "") :
    semanticStep threshold S h = S := by
  simp only [semanticStep]
  rw [if_pos hth, if_pos hde]

/-- `semanticStep` on a surviving hit for a fresh document appends a
new entry. -/
theorem semanticStep_fresh (threshold : ℚ) (S : DocMap) (h : QueryHit)
    (hth : threshold ≤ 1 - h.distance) (hde : ¬ h.document_id = "")
    (hl : lookupA S h.document_id = none) :
    semanticStep threshold S h = S ++ [(h.document_id,
      ⟨h.document_id, h.url, h.title, h.dtype, [(h.chunk_id, h.text)],
        1 - h.distance, 0⟩)] := by
  simp only [semanticStep]
  rw [if_pos hth, if_neg hde, hl]

/-- `semanticStep` on a surviving hit for a known document takes the
running maximum score and appends the chunk. -/
theorem semanticStep_known (threshold : ℚ) (S : DocMap) (h : QueryHit) (m : DocMatch)
    (hth : threshold ≤ 1 - h.distance) (hde : ¬ h.document_id = "")
    (hl : lookupA S h.document_id = some m) :
    semanticStep threshold S h =
      updateA (updateA S h.document_id
          (fun m => { m with semantic_score := max m.semantic_score (1 - h.distance) }))
        h.document_id (fun m => { m with chunks := m.chunks ++ [(h.chunk_id, h.text)] }) := by
  simp only [semanticStep]
  rw [if_pos hth, if_neg hde, hl]

/-- Characterization of `_semantic_search`: for every document id, the
search keeps it exactly when some chunk survives the threshold, its
recorded score is the maximum surviving similarity, and its chunk list
is exactly the surviving chunks in hit order. -/
theorem semantic_search_char (threshold : ℚ) :
    ∀ (hits : List QueryHit) (k : String), k ≠ "" →
    (lookupA (semantic_search hits threshold) k).map (fun m => (m.semantic_score, m.chunks)) =
      (maxQ? (simsOf threshold hits k)).map (fun q => (q, survivorsOf threshold hits k)) := by
  intro hits
  induction hits using List.reverseRecOn with
  | nil => intro k _; rfl
  | append_singleton hs h ih =>
    intro k hk
    have hstep : semantic_search (hs ++ [h]) threshold =
        semanticStep threshold (semantic_search hs threshold) h := by
      simp [semantic_search, List.foldl_append]
    rw [hstep]
    by_cases hth : threshold ≤ 1 - h.distance
    · by_cases hdk : h.document_id = k
      · have hsims : simsOf threshold (hs ++ [h]) k =
            simsOf threshold hs k ++ [1 - h.distance] := by
          simp [simsOf, List.filterMap_append, hdk, hth]
        have hsurv : survivorsOf threshold (hs ++ [h]) k =
            survivorsOf threshold hs k ++ [(h.chunk_id, h.text)] := by
          simp [survivorsOf, List.filterMap_append, hdk, hth]
        simp only [hsims, hsurv]
        have hne : ¬ h.document_id = "" := by rw [hdk]; exact hk
        cases hl : lookupA (semantic_search hs threshold) h.document_id with
        | none =>
          rw [semanticStep_fresh threshold _ h hth hne hl]
          rw [hdk] at hl
          rw [hdk]
          rw [lookupA_append_self _ _ _ hl]
          have ihk := ih k hk
          rw [hl] at ihk
          have hmq : maxQ? (simsOf threshold hs k) = none := by
            cases hmq : maxQ? (simsOf threshold hs k) with
            | none => rfl
            | some q => rw [hmq] at ihk; cases ihk
          have hsimsnil : simsOf threshold hs k = [] := by
            cases hsl : simsOf threshold hs k with
            | nil => rfl
            | cons y ys => rw [hsl] at hmq; cases hmq
          have hsurvnil : survivorsOf threshold hs k = [] :=
            (simsOf_nil_iff threshold hs k).mp hsimsnil
          rw [hsimsnil, hsurvnil]
          simp [maxQ?]
        | some m =>
          rw [semanticStep_known threshold _ h m hth hne hl]
          rw [hdk] at hl
          rw [hdk]
          rw [lookupA_update_self, lookupA_update_self, hl]
          have ihk := ih k hk
          rw [hl] at ihk
          cases hmq : maxQ? (simsOf threshold hs k) with
          | none => rw [hmq] at ihk; cases ihk
          | some q =>
            rw [hmq] at ihk
            simp only [Option.map] at ihk
            have hpair := Option.some.inj ihk
            have hsem : m.semantic_score = q := congrArg Prod.fst hpair
            have hch : m.chunks = survivorsOf threshold hs k := congrArg Prod.snd hpair
            rw [maxQ?_append_singleton, hmq]
            simp [hsem, hch]
      · have hsims : simsOf threshold (hs ++ [h]) k = simsOf threshold hs k := by
          simp [simsOf, List.filterMap_append, hdk]
        have hsurv : survivorsOf threshold (hs ++ [h]) k = survivorsOf threshold hs k := by
          simp [survivorsOf, List.filterMap_append, hdk]
        simp only [hsims, hsurv]
        have hlk : lookupA (semanticStep threshold (semantic_search hs threshold) h) k =
            lookupA (semantic_search hs threshold) k := by
          by_cases hde : h.document_id = ""
          · rw [semanticStep_skip_noid threshold _ h hth hde]
          · cases hl : lookupA (semantic_search hs threshold) h.document_id with
            | none =>
              rw [semanticStep_fresh threshold _ h hth hde hl]
              exact lookupA_append_ne _ _ _ _ (fun he => hdk he.symm)
            | some m =>
              rw [semanticStep_known threshold _ h m hth hde hl]
              rw [lookupA_update_ne _ _ _ _ (fun he => hdk he.symm),
                lookupA_update_ne _ _ _ _ (fun he => hdk he.symm)]
        rw [hlk]
        exact ih k hk
    · have hsims : simsOf threshold (hs ++ [h]) k = simsOf threshold hs k := by
        simp [simsOf, List.filterMap_append, hth]
      have hsurv : survivorsOf threshold (hs ++ [h]) k = survivorsOf threshold hs k := by
        simp [survivorsOf, List.filterMap_append, hth]
      simp only [hsims, hsurv]
      rw [semanticStep_skip_low threshold _ h hth]
      exact ih k hk

/-- A rational `foldl max` is above its initial value. -/
theorem le_foldl_max_self : ∀ (xs : List ℚ) (x : ℚ), x ≤ xs.foldl max x := by
  intro xs
  induction xs with
  | nil => intro x; exact le_refl x
  | cons y ys ih => intro x; exact le_trans (le_max_left x y) (ih (max x y))

/-- A rational `foldl max` is above every list element. -/
theorem le_foldl_max_mem : ∀ (xs : List ℚ) (x y : ℚ), y ∈ xs → y ≤ xs.foldl max x := by
  intro xs
  induction xs with
  | nil => intro x y hy; cases hy
  | cons z zs ih =>
    intro x y hy
    rcases List.mem_cons.mp hy with rfl | hy'
    · exact le_trans (le_max_right x y) (le_foldl_max_self zs (max x y))
    · exact ih (max x z) y hy'

/-- A rational `foldl max` is attained by the initial value or a list
element. -/
theorem foldl_max_mem : ∀ (xs : List ℚ) (x : ℚ), xs.foldl max x ∈ x :: xs := by
  intro xs
  induction xs with
  | nil => intro x; exact List.mem_singleton.mpr rfl
  | cons y ys ih =>
    intro x
    have h := ih (max x y)
    rcases List.mem_cons.mp h with heq | hmem
    · rcases max_choice x y with hx | hy
      · exact List.mem_cons.mpr (Or.inl (heq.trans hx))
      · exact List.mem_cons.mpr (Or.inr (List.mem_cons.mpr (Or.inl (heq.trans hy))))
    · exact List.mem_cons.mpr (Or.inr (List.mem_cons.mpr (Or.inr hmem)))

/-- `maxQ?` returns a member that is an upper bound. -/
theorem maxQ?_spec : ∀ (l : List ℚ) (m : ℚ),
    maxQ? l = some m → m ∈ l ∧ ∀ x ∈ l, x ≤ m := by
  intro l m h
  cases l with
  | nil => cases h
  | cons x xs =>
    have hm : xs.foldl max x = m := Option.some.inj h
    constructor
    · rw [← hm]; exact foldl_max_mem xs x
    · intro y hy
      rcases List.mem_cons.mp hy with rfl | hy'
      · rw [← hm]; exact le_foldl_max_self xs y
      · rw [← hm]; exact le_foldl_max_mem xs x y hy'

/-- C3: in the semantic signal every surviving chunk's similarity is
`1 − distance` and is at or above the threshold (chunks below it are
discarded), a document appears exactly when it has a surviving chunk,
its chunk list is exactly its surviving chunks, and its
`semantic_score` is the maximum surviving similarity — an attained
upper bound. -/
theorem C3_semantic_scoring :
    ∀ (threshold : ℚ) (hits : List QueryHit) (k : String), k ≠ "" →
    ((lookupA (semantic_search hits threshold) k).isSome ↔ simsOf threshold hits k ≠ []) ∧
    (∀ m, lookupA (semantic_search hits threshold) k = some m →
      m.chunks = survivorsOf threshold hits k ∧
      some m.semantic_score = maxQ? (simsOf threshold hits k) ∧
      m.semantic_score ∈ simsOf threshold hits k ∧
      (∀ q ∈ simsOf threshold hits k, q ≤ m.semantic_score) ∧
      threshold ≤ m.semantic_score) := by
  intro threshold hits k hk
  have hc := semantic_search_char threshold hits k hk
  constructor
  · constructor
    · intro hs
      obtain ⟨m, hm⟩ := Option.isSome_iff_exists.mp hs
      rw [hm] at hc
      cases hsl : simsOf threshold hits k with
      | nil => rw [hsl] at hc; cases hc
      | cons y ys => intro hfalse; cases hfalse
    · intro hne
      cases hsl : simsOf threshold hits k with
      | nil => exact absurd hsl hne
      | cons y ys =>
        rw [hsl] at hc
        cases hl : lookupA (semantic_search hits threshold) k with
        | none => rw [hl] at hc; cases hc
        | some m => rfl
  · intro m hm
    rw [hm] at hc
    cases hmq : maxQ? (simsOf threshold hits k) with
    | none => rw [hmq] at hc; cases hc
    | some q =>
      rw [hmq] at hc
      simp only [Option.map] at hc
      have hpair := Option.some.inj hc
      have hsem : m.semantic_score = q := congrArg Prod.fst hpair
      have hch : m.chunks = survivorsOf threshold hits k := congrArg Prod.snd hpair
      obtain ⟨hmem, hub⟩ := maxQ?_spec _ q hmq
      refine ⟨hch, by rw [hsem], by rw [hsem]; exact hmem,
        fun r hr => by rw [hsem]; exact hub r hr, ?_⟩
      have : ∀ r ∈ simsOf threshold hits k, threshold ≤ r := by
        intro r hr
        rw [simsOf] at hr
        obtain ⟨a, _, hfa⟩ := List.mem_filterMap.mp hr
        by_cases hca : a.document_id = k ∧ threshold ≤ 1 - a.distance
        · rw [if_pos hca] at hfa
          rw [← Option.some.inj hfa]
          exact hca.2
        · rw [if_neg hca] at hfa; cases hfa
      rw [hsem]
      exact this q hmem

/-- C3 witness: one hit at distance 0.4 against threshold 0.5 survives
with similarity 0.6 and becomes its document's semantic score. -/
theorem C3_semantic_scoring_witness :
    ∃ m, lookupA (semantic_search [⟨"c1", "body", "d", "u", "t", "webpage", 2/5⟩]
        (1/2)) "d" = some m ∧
      m.chunks = survivorsOf (1/2) [⟨"c1", "body", "d", "u", "t", "webpage", 2/5⟩] "d" ∧
      some m.semantic_score =
        maxQ? (simsOf (1/2) [⟨"c1", "body", "d", "u", "t", "webpage", 2/5⟩] "d") ∧
      (1 : ℚ)/2 ≤ m.semantic_score := by
  have hss : semantic_search [⟨"c1", "body", "d", "u", "t", "webpage", 2/5⟩] (1/2) =
      [("d", ⟨"d", "u", "t", "webpage", [("c1", "body")], 1 - 2/5, 0⟩)] := by
    show semanticStep (1/2) [] ⟨"c1", "body", "d", "u", "t", "webpage", 2/5⟩ = _
    rw [semanticStep_fresh (1/2) [] ⟨"c1", "body", "d", "u", "t", "webpage", 2/5⟩
      (by norm_num) (by decide) rfl]
    rfl
  have hl : lookupA (semantic_search [⟨"c1", "body", "d", "u", "t", "webpage", 2/5⟩]
      (1/2)) "d" = some ⟨"d", "u", "t", "webpage", [("c1", "body")], 1 - 2/5, 0⟩ := by
    rw [hss]; rfl
  have h := (C3_semantic_scoring (1/2) [⟨"c1", "body", "d", "u", "t", "webpage", 2/5⟩]
    "d" (by decide)).2 ⟨"d", "u", "t", "webpage", [("c1", "body")], 1 - 2/5, 0⟩ hl
  exact ⟨_, hl, h.1, h.2.1, h.2.2.2.2⟩

/-- Membership in the first-occurrence dedup. -/
theorem mem_dedupKeys_aux : ∀ (l acc : List String) (k : String),
    (k ∈ l.foldl (fun acc k => if k ∈ acc then acc else acc ++ [k]) acc) ↔
      (k ∈ acc ∨ k ∈ l) := by
  intro l
  induction l with
  | nil => intro acc k; simp
  | cons a as ih =>
    intro acc k
    rw [List.foldl_cons]
    by_cases ha : a ∈ acc
    · rw [if_pos ha, ih]
      simp only [List.mem_cons]
      constructor
      · rintro (h | h)
        · exact Or.inl h
        · exact Or.inr (Or.inr h)
      · rintro (h | h | h)
        · exact Or.inl h
        · exact Or.inl (h ▸ ha)
        · exact Or.inr h
    · rw [if_neg ha, ih]
      simp only [List.mem_append, List.mem_singleton, List.mem_cons]
      tauto

/-- A key is in `dedupKeys l` exactly when it is in `l`. -/
theorem mem_dedupKeys (l : List String) (k : String) :
    k ∈ dedupKeys l ↔ k ∈ l := by
  rw [dedupKeys, mem_dedupKeys_aux]
  simp

/-- The score a merged candidate records for the semantic side is
nonnegative when every map entry's is. -/
theorem semScoreOf_nonneg (m : DocMap) (k : String)
    (h : ∀ p ∈ m, 0 ≤ p.2.semantic_score) : 0 ≤ semScoreOf m k := by
  rw [semScoreOf, lookupA]
  cases hf : m.find? (fun p => p.1 = k) with
  | none => simp
  | some p =>
    simp only [Option.map, Option.getD]
    exact h p (List.mem_of_find?_eq_some hf)

/-- Same for the keyword side. -/
theorem kwScoreOf_nonneg (m : DocMap) (k : String)
    (h : ∀ p ∈ m, 0 ≤ p.2.keyword_score) : 0 ≤ kwScoreOf m k := by
  rw [kwScoreOf, lookupA]
  cases hf : m.find? (fun p => p.1 = k) with
  | none => simp
  | some p =>
    simp only [Option.map, Option.getD]
    exact h p (List.mem_of_find?_eq_some hf)

/-- Field-level description of one merged candidate. -/
theorem mergeOne_spec (semantic keyword : DocMap) (k : String) :
    (mergeOne semantic keyword k).document_id = k ∧
    (mergeOne semantic keyword k).semantic_score = semScoreOf semantic k ∧
    (mergeOne semantic keyword k).keyword_score = kwScoreOf keyword k ∧
    (0 < semScoreOf semantic k → 0 < kwScoreOf keyword k →
      (mergeOne semantic keyword k).confidence =
        max (semScoreOf semantic k) (kwScoreOf keyword k) ∧
      (mergeOne semantic keyword k).match_type = "semantic+keyword") ∧
    (0 < semScoreOf semantic k → ¬ 0 < kwScoreOf keyword k →
      (mergeOne semantic keyword k).confidence = semScoreOf semantic k ∧
      (mergeOne semantic keyword k).match_type = "semantic") ∧
    (¬ 0 < semScoreOf semantic k →
      (mergeOne semantic keyword k).confidence = kwScoreOf keyword k ∧
      (mergeOne semantic keyword k).match_type = "keyword") := by
  refine ⟨rfl, rfl, rfl, ?_, ?_, ?_⟩
  · intro hs hk
    simp only [mergeOne]
    rw [if_pos ⟨hs, hk⟩]
    exact ⟨rfl, rfl⟩
  · intro hs hk
    simp only [mergeOne]
    simp only [semScoreOf, kwScoreOf] at hs hk
    rw [if_neg (fun hc => hk hc.2), if_pos hs]
    exact ⟨rfl, rfl⟩
  · intro hs
    simp only [mergeOne]
    simp only [semScoreOf] at hs
    rw [if_neg (fun hc => hs hc.1), if_neg hs]
    exact ⟨rfl, rfl⟩

/-- C2: for every document id in the union of the two result sets the
merged list holds a candidate whose scores are the two signals' scores;
its confidence is their maximum with match type "semantic+keyword" when
both are nonzero, and is the one nonzero score with that signal's match
type when exactly one is; the returned list is sorted by descending
confidence. -/
theorem C2_merge_confidence :
    ∀ (semantic keyword : DocMap),
    (∀ p ∈ semantic, 0 ≤ p.2.semantic_score) →
    (∀ p ∈ keyword, 0 ≤ p.2.keyword_score) →
    (∀ k, k ∈ semantic.map (·.1) ++ keyword.map (·.1) →
      ∃ c ∈ merge_results semantic keyword,
        c.document_id = k ∧
        c.semantic_score = semScoreOf semantic k ∧
        c.keyword_score = kwScoreOf keyword k ∧
        (c.semantic_score ≠ 0 → c.keyword_score ≠ 0 →
          c.confidence = max c.semantic_score c.keyword_score ∧
          c.match_type = "semantic+keyword") ∧
        (c.semantic_score ≠ 0 → c.keyword_score = 0 →
          c.confidence = c.semantic_score ∧ c.match_type = "semantic") ∧
        (c.semantic_score = 0 → c.keyword_score ≠ 0 →
          c.confidence = c.keyword_score ∧ c.match_type = "keyword")) ∧
    (merge_results semantic keyword).Sorted byConfDesc := by
  intro semantic keyword hsem hkw
  constructor
  · intro k hkmem
    obtain ⟨hdoc, hss, hks, hboth, hsonly, hkonly⟩ := mergeOne_spec semantic keyword k
    have hs0 : 0 ≤ semScoreOf semantic k := semScoreOf_nonneg semantic k hsem
    have hk0 : 0 ≤ kwScoreOf keyword k := kwScoreOf_nonneg keyword k hkw
    refine ⟨mergeOne semantic keyword k, ?_, hdoc, hss, hks, ?_, ?_, ?_⟩
    · rw [merge_results]
      refine (List.perm_insertionSort byConfDesc _).mem_iff.mpr ?_
      exact List.mem_map_of_mem (mergeOne semantic keyword)
        ((mem_dedupKeys _ k).mpr hkmem)
    · intro hne1 hne2
      rw [hss] at hne1
      rw [hks] at hne2
      exact hboth (lt_of_le_of_ne hs0 (Ne.symm hne1)) (lt_of_le_of_ne hk0 (Ne.symm hne2))
    · intro hne1 heq2
      rw [hss] at hne1
      rw [hks] at heq2
      have h := hsonly (lt_of_le_of_ne hs0 (Ne.symm hne1)) (by rw [heq2]; exact lt_irrefl 0)
      exact ⟨h.1.trans hss.symm, h.2⟩
    · intro heq1 hne2
      rw [hss] at heq1
      rw [hks] at hne2
      have h := hkonly (by rw [heq1]; exact lt_irrefl 0)
      exact ⟨h.1.trans hks.symm, h.2⟩
  · rw [merge_results]
    exact List.sorted_insertionSort byConfDesc _

/-- C2 witness: a document hit by both signals with scores 0.55 and
0.7 merges to confidence 0.7 with match type "semantic+keyword", and
the merged list is sorted. -/
theorem C2_merge_confidence_witness :
    let semantic : DocMap := [("d", ⟨"d", "u", "t", "webpage", [("c1", "x")], 11/20, 0⟩)]
    let keyword : DocMap := [("d", ⟨"d", "u", "t", "webpage", [("c2", "y")], 0, 7/10⟩)]
    (∃ c ∈ merge_results semantic keyword,
      c.document_id = "d" ∧
      c.confidence = max (11/20 : ℚ) (7/10) ∧
      c.match_type = "semantic+keyword") ∧
    (merge_results semantic keyword).Sorted byConfDesc := by
  intro semantic keyword
  have h := C2_merge_confidence semantic keyword
    (by
      intro p hp
      rw [List.mem_singleton] at hp
      rw [hp]
      norm_num)
    (by
      intro p hp
      rw [List.mem_singleton] at hp
      rw [hp]
      norm_num)
  obtain ⟨c, hcmem, hdoc, hss, hks, hboth, _, _⟩ := h.1 "d" (by decide)
  have hsv : semScoreOf semantic "d" = 11/20 := rfl
  have hkv : kwScoreOf keyword "d" = 7/10 := rfl
  have hb := hboth
    (by rw [hss, hsv]; norm_num)
    (by rw [hks, hkv]; norm_num)
  refine ⟨⟨c, hcmem, hdoc, ?_, hb.2⟩, h.2⟩
  rw [hb.1, hss, hks, hsv, hkv]
